import Mathlib

/-!
Verification of the recipe-extraction logic of `backend/extract_server.py`.

The extraction core (`extract_recipe`, lines 290-473 of the source, after the
network fetch produced a parsed document) is embedded shallowly:

* Python strings are Lean `String`s; `str.split()`, `str.strip()`,
  `str.lower()` and substring tests are re-implemented character by
  character (ASCII whitespace and case, matching the markup the heuristics
  target).
* The parsed HTML document (the BeautifulSoup tree) is a mutual inductive
  `Node`/`NodeList` tree of elements and text nodes.  BeautifulSoup
  operations used by the source (`find_all`, `find`, `get_text`,
  `find_next_siblings`, `.parent`) are defined as traversals of that tree.
  A found `Tag` is always truthy in bs4 (`Tag.__bool__` returns `True`),
  which the title/image chains rely on.
* JSON values are the inductive `Json`.  The result of
  `json.loads(script.string or '')` on an `ld+json` script block is
  modelled as a field of the script element's attributes: `none` models a
  decode failure (the `json.JSONDecodeError` caught at line 306), `some j`
  a successful decode.
* Python exceptions raised while processing a structured-data entry
  (attribute/type errors from `.strip()` on a non-string or from iterating
  a non-iterable) are modelled with `Except Unit` / an explicit "raised"
  boolean, caught by the `try`/`except` that wraps the whole structured
  scan (lines 303-347).
-/

set_option maxHeartbeats 1000000

namespace Cocinando

/-! ### Python string primitives -/

/-- ASCII whitespace as recognised by Python's `str.split` / `str.strip`. -/
def isSpaceChar (c : Char) : Bool :=
  c == ' ' || c == '\t' || c == '\n' || c == '\r' || c == '\x0b' || c == '\x0c'

/-- Python `str.split()` on a character list: whitespace runs separate words,
leading/trailing whitespace is dropped.  `acc` is the word currently being
accumulated. -/
def splitWsAux : List Char → List Char → List (List Char)
  | [], acc => if acc.isEmpty then [] else [acc]
  | c :: cs, acc =>
    if isSpaceChar c then (if acc.isEmpty then [] else [acc]) ++ splitWsAux cs []
    else splitWsAux cs (acc ++ [c])

/-- The whitespace-separated words of a character list (Python `str.split()`). -/
def wordsOf (l : List Char) : List (List Char) := splitWsAux l []

/-- Python `' '.join` on character-list words. -/
def joinWords : List (List Char) → List Char
  | [] => []
  | [w] => w
  | w :: ws => w ++ ' ' :: joinWords ws

/-- Source `_normalize_space` (lines 26-27): `' '.join((text or '').split())`. -/
def normalize_space (s : String) : String := ⟨joinWords (wordsOf s.data)⟩

/-- Python `str.lower()` (ASCII). -/
def lowerStr (s : String) : String := ⟨s.data.map Char.toLower⟩

/-- Python `str.strip()`. -/
def stripStr (s : String) : String :=
  ⟨((s.data.dropWhile isSpaceChar).reverse.dropWhile isSpaceChar).reverse⟩

/-- Whether `a` starts with `b` (character lists). -/
def chStarts : List Char → List Char → Bool
  | [], _ => true
  | _ :: _, [] => false
  | a :: as, b :: bs => a == b && chStarts as bs

/-- Whether `needle` occurs as a contiguous substring of the second list. -/
def chSub (needle : List Char) : List Char → Bool
  | [] => needle.isEmpty
  | b :: bs => chStarts needle (b :: bs) || chSub needle bs

/-- Python `needle in hay` on strings. -/
def containsStr (hay needle : String) : Bool := chSub needle.data hay.data

/-- Python `s.startswith(p)`. -/
def startsWithStr (s p : String) : Bool := chStarts p.data s.data

/-- Python `s.split('\n')` (keeps empty pieces). -/
def splitNlAux : List Char → List Char → List String
  | [], acc => [⟨acc⟩]
  | c :: cs, acc =>
    if c == '\n' then (⟨acc⟩ : String) :: splitNlAux cs []
    else splitNlAux cs (acc ++ [c])

/-- Python `s.split('\n')`. -/
def splitNl (s : String) : List String := splitNlAux s.data []

/-! ### The normalizer / deduplicator -/

/-- The dedup comparison key: `_normalize_space(item).lower()` (line 34). -/
def dedupKey (s : String) : String := lowerStr (normalize_space s)

/-- Loop body of `_unique_preserve_order` (lines 30-39); `seen` models the
`seen` set. -/
def upoAux (seen : List String) : List String → List String
  | [] => []
  | item :: rest =>
    let norm := dedupKey item
    if norm == "" || seen.contains norm then upoAux seen rest
    else normalize_space item :: upoAux (norm :: seen) rest

/-- Source `_unique_preserve_order` (lines 30-39). -/
def unique_preserve_order (items : List String) : List String := upoAux [] items

/-! ### JSON values -/

/-- A decoded JSON value (the result of `json.loads`). -/
inductive Json where
  | null
  | bool (b : Bool)
  | num (n : Int)
  | str (s : String)
  | arr (elems : List Json)
  | obj (fields : List (String × Json))

/-- Python `dict.get(key)` on a decoded JSON object's field list (keys distinct). -/
def jlookup : List (String × Json) → String → Option Json
  | [], _ => none
  | (k, v) :: rest, key => if k == key then some v else jlookup rest key

/-- Python `entry.get(key)` where a non-dict yields nothing. -/
def Json.get? : Json → String → Option Json
  | .obj fs, key => jlookup fs key
  | _, _ => none

/-- Python truthiness of a decoded JSON value. -/
def Json.truthy : Json → Bool
  | .null => false
  | .bool b => b
  | .num n => n != 0
  | .str s => !(s == "")
  | .arr xs => !xs.isEmpty
  | .obj fs => !fs.isEmpty

/-- Python iteration over a JSON value: lists yield elements, strings yield
one-character strings, dicts yield their keys; other values raise
`TypeError`. -/
def Json.pyElems : Json → Except Unit (List Json)
  | .arr xs => .ok xs
  | .str s => .ok (s.data.map fun c => .str ⟨[c]⟩)
  | .obj fs => .ok (fs.map fun kv => .str kv.1)
  | _ => .error ()

/-- Python `v.strip()`: raises `AttributeError` unless `v` is a string. -/
def Json.pyStrip : Json → Except Unit String
  | .str s => .ok (stripStr s)
  | _ => .error ()

/-! ### The parsed document (BeautifulSoup tree) -/

/-- The element attributes the extractor reads.  `classes` is the
multi-valued `class` attribute (`tag.get('class', [])`); the remaining
single-valued attributes are `none` when absent.  `ldjson` models the
outcome of `json.loads(script.string or '')` for a script element:
`none` is a decode failure, `some j` a successful decode. -/
structure Attrs where
  classes : List String := []
  id : Option String := none
  href : Option String := none
  src : Option String := none
  alt : Option String := none
  typeAttr : Option String := none
  property : Option String := none
  nameAttr : Option String := none
  content : Option String := none
  ldjson : Option Json := none

mutual
/-- A node of the parsed HTML tree: an element (tag name, attributes,
children) or a text node (a `NavigableString`). -/
inductive Node where
  | elem : String → Attrs → NodeList → Node
  | text : String → Node

/-- A sibling list of nodes. -/
inductive NodeList where
  | nil : NodeList
  | cons : Node → NodeList → NodeList
end

/-- Embed a Lean list of nodes as a `NodeList`. -/
def NodeList.ofList : List Node → NodeList
  | [] => .nil
  | n :: ns => .cons n (NodeList.ofList ns)

/-- Convenience constructor for an element. -/
def el (t : String) (a : Attrs) (cs : List Node) : Node :=
  .elem t a (.ofList cs)

/-- The attributes of a node (text nodes have none). -/
def Node.attrs : Node → Attrs
  | .text _ => {}
  | .elem _ a _ => a

/-- Whether `n.name == t` for a Tag; text nodes match no tag name. -/
def Node.tagIs (n : Node) (t : String) : Bool :=
  match n with
  | .elem tg _ _ => tg == t
  | .text _ => false

mutual
/-- All `NavigableString`s below a node, in document order (what
`get_text` joins). -/
def Node.strings : Node → List String
  | .text s => [s]
  | .elem _ _ cs => NodeList.strings cs

/-- All strings below a node list, in document order. -/
def NodeList.strings : NodeList → List String
  | .nil => []
  | .cons n ns => n.strings ++ NodeList.strings ns
end

mutual
/-- A node together with all element descendants, preorder (document
order); a text node contributes nothing. -/
def Node.selfElems : Node → List Node
  | .text _ => []
  | .elem t a cs => .elem t a cs :: NodeList.elems cs

/-- All elements of a node list, preorder: this is `find_all` document
order over the subtree. -/
def NodeList.elems : NodeList → List Node
  | .nil => []
  | .cons n ns => n.selfElems ++ NodeList.elems ns
end

/-- The strict element descendants of a node (what `tag.find_all` and
`tag.find` search). -/
def Node.descElems : Node → List Node
  | .text _ => []
  | .elem _ _ cs => NodeList.elems cs

mutual
/-- Every element of the subtree paired with the node list of its
following siblings (for `find_next_siblings`), preorder. -/
def Node.elemsWithSibs : Node → NodeList → List (Node × NodeList)
  | .text _, _ => []
  | .elem t a cs, sibs => (.elem t a cs, sibs) :: NodeList.elemsWithSibs cs

/-- Every element of a node list paired with its following siblings. -/
def NodeList.elemsWithSibs : NodeList → List (Node × NodeList)
  | .nil => []
  | .cons n ns => n.elemsWithSibs ns ++ NodeList.elemsWithSibs ns
end

mutual
/-- Every element of the subtree paired with its parent element (`none`
for a top-level element, whose bs4 parent is the soup object itself,
which carries no attributes), preorder. -/
def Node.elemsWithParent : Option Node → Node → List (Option Node × Node)
  | _, .text _ => []
  | p, .elem t a cs => (p, .elem t a cs) :: NodeList.elemsWithParent (some (.elem t a cs)) cs

/-- Every element of a node list paired with its parent element. -/
def NodeList.elemsWithParent : Option Node → NodeList → List (Option Node × Node)
  | _, .nil => []
  | p, .cons n ns => Node.elemsWithParent p n ++ NodeList.elemsWithParent p ns
end

/-- The bs4 `get_text(separator=sep, strip=True)`: each descendant string is
stripped, empty results are skipped, the remainder is joined with `sep`. -/
def joinStrSep (sep : String) : List String → String
  | [] => ""
  | [x] => x
  | x :: xs => x ++ sep ++ joinStrSep sep xs

/-- The bs4 `tag.get_text(separator=' ', strip=True)`. -/
def getTextSpaced (n : Node) : String :=
  joinStrSep " " ((n.strings.map stripStr).filter (· ≠ ""))

/-- The bs4 `tag.get_text(strip=True)` (default empty separator). -/
def getTextStripped (n : Node) : String :=
  joinStrSep "" ((n.strings.map stripStr).filter (· ≠ ""))

/-! ### The extraction result -/

/-- The `result` dict built by `extract_recipe`.  A field is `none` when
its key was never assigned.  `title` and `image` hold arbitrary JSON
values: the structured-data pass assigns `entry['name']` / `entry['image']`
(or its `url`) verbatim, and the heuristics assign strings
(wrapped as `Json.str`). -/
structure ExtractionResult where
  title : Option Json := none
  ingredients : Option (List String) := none
  steps : Option (List String) := none
  image : Option Json := none
  links : Option (List String) := none

/-- Truthiness of `result.get(field)` for a JSON-valued field. -/
def optJsonTruthy : Option Json → Bool
  | some j => j.truthy
  | none => false

/-- Truthiness of `result.get(field)` for a list field: the key must be
present and the list non-empty. -/
def listTruthy : Option (List String) → Bool
  | some (_ :: _) => true
  | _ => false

/-! ### The structured-data (JSON-LD) pass, source lines 302-347 -/

/-- The `ld+json` filter of line 304: `lambda t: t and 'ld+json' in t`
applied to the `type` attribute (`None` when the attribute is absent). -/
def Node.typeHasLdJson (n : Node) : Bool :=
  match n.attrs.typeAttr with
  | some t => containsStr t "ld+json"
  | none => false

/-- The decode outcomes of `json.loads(script.string or '')` for each
`ld+json` script block, in document order (line 304-308). -/
def ldJsonPayloads (doc : NodeList) : List (Option Json) :=
  (doc.elems.filter fun n => n.tagIs "script" && n.typeHasLdJson).map
    fun n => n.attrs.ldjson

/-- Line 311: `isinstance(entry, dict) and entry.get('@type') == 'Recipe'`. -/
def isRecipeEntry : Json → Bool
  | .obj fs =>
    match jlookup fs "@type" with
    | some (.str s) => s == "Recipe"
    | _ => false
  | _ => false

/-- Lines 312-313: `if not result.get('title') and entry.get('name'):
result['title'] = entry['name']` — the JSON value is stored verbatim. -/
def setTitleSD (r : ExtractionResult) (entry : Json) : ExtractionResult :=
  if optJsonTruthy r.title then r
  else
    match entry.get? "name" with
    | some v => if v.truthy then { r with title := some v } else r
    | none => r

/-- The list comprehension of line 316:
`[i.strip() for i in entry['recipeIngredient'] if i.strip()]`;
a non-string item raises. -/
def stripLines : List Json → Except Unit (List String)
  | [] => .ok []
  | i :: rest =>
    match i.pyStrip with
    | .error e => .error e
    | .ok s =>
      match stripLines rest with
      | .error e => .error e
      | .ok others => .ok (if s == "" then others else s :: others)

/-- Lines 314-317.  The returned boolean is `true` when a Python exception
was raised (non-iterable value, or a non-string ingredient line). -/
def setIngredientsSD (r : ExtractionResult) (entry : Json) :
    ExtractionResult × Bool :=
  match entry.get? "recipeIngredient" with
  | some v =>
    if v.truthy then
      match v.pyElems with
      | .error _ => (r, true)
      | .ok items =>
        match stripLines items with
        | .error _ => (r, true)
        | .ok lines =>
          ({ r with ingredients := some (unique_preserve_order lines) }, false)
    else (r, false)
  | none => (r, false)

/-- Lines 322-326: one item of a `recipeInstructions` list contributes the
stripped `text` of a step object, or a stripped plain string; anything
else contributes nothing.  A step object with a truthy non-string `text`
raises. -/
def stepItemText : Json → Except Unit (Option String)
  | .obj fs =>
    match jlookup fs "text" with
    | some t =>
      if t.truthy then
        match t.pyStrip with
        | .ok s => .ok (some s)
        | .error e => .error e
      else .ok none
    | none => .ok none
  | .str s => .ok (some (stripStr s))
  | _ => .ok none

/-- The loop of lines 321-326 over a `recipeInstructions` list. -/
def stepsFromList : List Json → Except Unit (List String)
  | [] => .ok []
  | s :: rest =>
    match stepItemText s with
    | .error e => .error e
    | .ok o =>
      match stepsFromList rest with
      | .error e => .error e
      | .ok others =>
        .ok (match o with | some t => t :: others | none => others)

/-- Lines 320-328: the candidate step texts of a `recipeInstructions`
value — a list is walked item by item, a string is split on newlines, any
other shape yields no steps. -/
def instructionSteps : Json → Except Unit (List String)
  | .arr xs => stepsFromList xs
  | .str s => .ok (((splitNl s).map stripStr).filter (· ≠ ""))
  | _ => .ok []

/-- Lines 318-330: `result['steps']` is assigned only when at least one
step text was collected. -/
def setStepsSD (r : ExtractionResult) (entry : Json) :
    ExtractionResult × Bool :=
  match entry.get? "recipeInstructions" with
  | some v =>
    if v.truthy then
      match instructionSteps v with
      | .error _ => (r, true)
      | .ok steps =>
        if steps.isEmpty then (r, false)
        else ({ r with steps := some (unique_preserve_order steps) }, false)
    else (r, false)
  | none => (r, false)

/-- Lines 331-342: structured image — a dict's truthy `url`, else the
first element of a list (plain string or dict with truthy `url`), else a
plain string; stored verbatim. -/
def setImageSD (r : ExtractionResult) (entry : Json) : ExtractionResult :=
  if optJsonTruthy r.image then r
  else
    match entry.get? "image" with
    | some img =>
      if img.truthy then
        match img with
        | .obj fs =>
          match jlookup fs "url" with
          | some u => if u.truthy then { r with image := some u } else r
          | none => r
        | .arr (first :: _) =>
          match first with
          | .str s => { r with image := some (.str s) }
          | .obj fs =>
            match jlookup fs "url" with
            | some u => if u.truthy then { r with image := some u } else r
            | none => r
          | _ => r
        | .str s => { r with image := some (.str s) }
        | _ => r
      else r
    | none => r

/-- Lines 311-343: process the first Recipe entry of a block.  The boolean
is `true` when a Python exception escaped the entry (to be caught by the
outer handler of lines 303/346). -/
def processEntry (r : ExtractionResult) (entry : Json) :
    ExtractionResult × Bool :=
  let r1 := setTitleSD r entry
  match setIngredientsSD r1 entry with
  | (r2, true) => (r2, true)
  | (r2, false) =>
    match setStepsSD r2 entry with
    | (r3, true) => (r3, true)
    | (r3, false) => (setImageSD r3 entry, false)

/-- Lines 309-343: flatten one level (a single object becomes a one-entry
list), select the first Recipe entry, process it, `break`. -/
def processBlock (r : ExtractionResult) (data : Json) :
    ExtractionResult × Bool :=
  let entries := match data with | .arr xs => xs | d => [d]
  match entries.find? isRecipeEntry with
  | some e => processEntry r e
  | none => (r, false)

/-- Lines 303-347: the scan over the script blocks.  A decode failure
(`none`) skips just that block (inner `except`, line 306-308); an
exception from entry processing ends the whole scan (outer `except`,
line 346), keeping the fields assigned before it; after a block, the scan
stops as soon as `result` has truthy ingredients or steps (lines 344-345). -/
def structuredScan (r : ExtractionResult) : List (Option Json) → ExtractionResult
  | [] => r
  | none :: rest => structuredScan r rest
  | some data :: rest =>
    match processBlock r data with
    | (r2, true) => r2
    | (r2, false) =>
      if listTruthy r2.ingredients || listTruthy r2.steps then r2
      else structuredScan r2 rest

/-! ### The heuristic passes, source lines 349-473 -/

/-- Lines 357, 380, 419, 436: `' '.join(tag.get('class', [])).lower()`. -/
def classJoinLower (a : Attrs) : String := lowerStr (joinStrSep " " a.classes)

/-- Lines 358, 420: `(tag.get('id') or '').lower()`. -/
def idLower (a : Attrs) : String := lowerStr (a.id.getD "")

/-- The noise test `any(word in s for word in ['comment', 'review'])`. -/
def noisy (s : String) : Bool :=
  containsStr s "comment" || containsStr s "review"

/-- Lines 349-352: title heuristic.  `soup.find('h1') or soup.find('title')`
— a found bs4 Tag is always truthy (`Tag.__bool__` returns `True`), so the
first `h1`, even an empty one, wins over the `title` element. -/
def titlePass (doc : NodeList) (r : ExtractionResult) : ExtractionResult :=
  if optJsonTruthy r.title then r
  else
    match doc.elems.find? (fun n => n.tagIs "h1") with
    | some h => { r with title := some (.str (getTextStripped h)) }
    | none =>
      match doc.elems.find? (fun n => n.tagIs "title") with
      | some t => { r with title := some (.str (getTextStripped t)) }
      | none => r

/-- Lines 359, 362-366: `'ingredient' in classes or 'ingredient' in cid`. -/
def ingredientMarked (a : Attrs) : Bool :=
  containsStr (classJoinLower a) "ingredient" ||
  containsStr (idLower a) "ingredient"

/-- Line 361-368: `container.find(lambda tag: ...)` — the container has a
strict descendant element that is also ingredient-marked. -/
def Node.hasMarkedDesc (n : Node) : Bool :=
  n.descElems.any fun d => ingredientMarked d.attrs

/-- The sequence of `continue` guards of lines 356-371: the container is
ingredient-marked, has no ingredient-marked descendant, and is not
noise-tagged by class or id. -/
def containerSurvives (n : Node) : Bool :=
  ingredientMarked n.attrs && !n.hasMarkedDesc &&
  !noisy (classJoinLower n.attrs) && !noisy (idLower n.attrs)

/-- The containers `soup.find_all(True)` retains in the ingredient scan. -/
def ingredientContainers (doc : NodeList) : List Node :=
  doc.elems.filter containerSurvives

/-- Lines 373-376 (and 410-413): the non-empty
`get_text(separator=' ', strip=True)` of every `li`/`p` descendant. -/
def liPTexts (n : Node) : List String :=
  ((n.descElems.filter fun d => d.tagIs "li" || d.tagIs "p").map
    getTextSpaced).filter (· ≠ "")

/-- Lines 382-385 (and 400-403, 439-442): the non-empty texts of the `li`
descendants. -/
def liTexts (n : Node) : List String :=
  ((n.descElems.filter fun d => d.tagIs "li").map getTextSpaced).filter (· ≠ "")

/-- Lines 355-376: the DOM ingredient scan. -/
def domIngredients (doc : NodeList) : List String :=
  (ingredientContainers doc).flatMap liPTexts

/-- Lines 378-385: the `ul`/`ol`-with-ingredient-class fallback (class
only; the id is not consulted here). -/
def ulIngredients (doc : NodeList) : List String :=
  (doc.elems.filter fun n =>
    (n.tagIs "ul" || n.tagIs "ol") &&
    containsStr (classJoinLower n.attrs) "ingredient").flatMap liTexts

/-- Lines 354-388: the ingredient chain, run only when the field is not
already truthy. -/
def ingredientsPass (doc : NodeList) (r : ExtractionResult) : ExtractionResult :=
  if listTruthy r.ingredients then r
  else
    let ingredients := domIngredients doc
    let ingredients := if ingredients.isEmpty then ulIngredients doc else ingredients
    if ingredients.isEmpty then r
    else { r with ingredients := some (unique_preserve_order ingredients) }

/-- Line 392: the heading keywords of the step chain. -/
def stepKeywords : List String :=
  ["instruction", "direction", "step", "method", "preparation", "process"]

/-- Line 393: `soup.find_all(['h1', ..., 'h6'])`. -/
def isHeadingTag (n : Node) : Bool :=
  n.tagIs "h1" || n.tagIs "h2" || n.tagIs "h3" ||
  n.tagIs "h4" || n.tagIs "h5" || n.tagIs "h6"

/-- Lines 394-395: the heading's normalized text contains a step keyword. -/
def stepKeywordHit (h : Node) : Bool :=
  stepKeywords.any fun k => containsStr (lowerStr (getTextSpaced h)) k

/-- Lines 396-413: the walk over `heading.find_next_siblings()` (element
siblings only — bs4 yields Tags).  The walk breaks at the first sibling
whose tag name starts with `'h'` (`sib.name.startswith('h')`); an
`ol`/`ul` contributes its `li` texts, a `p` its own text, anything else
its `li`/`p` descendant texts. -/
def sibWalk : NodeList → List String
  | .nil => []
  | .cons sib rest =>
    match sib with
    | .text _ => sibWalk rest
    | .elem t a cs =>
      if startsWithStr t "h" then []
      else if t == "ol" || t == "ul" then
        liTexts (.elem t a cs) ++ sibWalk rest
      else if t == "p" then
        (let x := getTextSpaced (.elem t a cs)
         if x == "" then [] else [x]) ++ sibWalk rest
      else liPTexts (.elem t a cs) ++ sibWalk rest

/-- Lines 393-415: try the keyword headings in document order; the loop
breaks at the first heading whose sibling walk collected any steps. -/
def pickHeading : List (Node × NodeList) → List String
  | [] => []
  | (h, sibs) :: rest =>
    if isHeadingTag h && stepKeywordHit h then
      let s := sibWalk sibs
      if s.isEmpty then pickHeading rest else s
    else pickHeading rest

/-- Lines 393-415: the heading-anchored step scan. -/
def headingSteps (doc : NodeList) : List String :=
  pickHeading doc.elemsWithSibs

/-- Line 421-423 keywords. -/
def stepClassKeywords : List String := ["instruction", "direction", "step"]

/-- Lines 421-423: class/id token set contains a step keyword. -/
def stepMarked (a : Attrs) : Bool :=
  (stepClassKeywords.any fun k => containsStr (classJoinLower a) k) ||
  (stepClassKeywords.any fun k => containsStr (idLower a) k)

/-- Lines 417-432: the class/id-based step scan (all matching, non-noisy
containers contribute; there is no break). -/
def classSteps (doc : NodeList) : List String :=
  (doc.elems.filter fun n =>
    stepMarked n.attrs && !noisy (classJoinLower n.attrs) &&
    !noisy (idLower n.attrs)).flatMap liPTexts

/-- Line 436: `' '.join(ol.parent.get('class', [])).lower()` with `''`
for a missing parent element (the soup root has no attributes). -/
def parentClassLower : Option Node → String
  | some p => classJoinLower p.attrs
  | none => ""

/-- Lines 434-444: walk the `ol` elements in document order, skip those
whose parent's class string contains a noise token (the parent id is not
consulted), and stop at the first `ol` whose `li` texts are non-empty. -/
def olFallback : List (Option Node × Node) → List String
  | [] => []
  | (p, n) :: rest =>
    if !(n.tagIs "ol") then olFallback rest
    else if noisy (parentClassLower p) then olFallback rest
    else
      let s := liTexts n
      if s.isEmpty then olFallback rest else s

/-- Lines 434-444: the first-`ol` step fallback. -/
def olSteps (doc : NodeList) : List String :=
  olFallback (NodeList.elemsWithParent none doc)

/-- Lines 390-447: the step chain, run only when the field is not already
truthy. -/
def stepsPass (doc : NodeList) (r : ExtractionResult) : ExtractionResult :=
  if listTruthy r.steps then r
  else
    let steps := headingSteps doc
    let steps := if steps.isEmpty then classSteps doc else steps
    let steps := if steps.isEmpty then olSteps doc else steps
    if steps.isEmpty then r
    else { r with steps := some (unique_preserve_order steps) }

/-- Line 450: `soup.find('meta', property='og:image') or
soup.find('meta', attrs={'name': 'og:image'})`. -/
def ogImageMeta (doc : NodeList) : Option Node :=
  match doc.elems.find? (fun n =>
      n.tagIs "meta" && n.attrs.property == some "og:image") with
  | some m => some m
  | none =>
    doc.elems.find? (fun n =>
      n.tagIs "meta" && n.attrs.nameAttr == some "og:image")

/-- Lines 449-452: the `og:image` meta pass (the `content` must be
present and non-empty). -/
def metaImagePass (doc : NodeList) (r : ExtractionResult) : ExtractionResult :=
  if optJsonTruthy r.image then r
  else
    match ogImageMeta doc with
    | some m =>
      match m.attrs.content with
      | some c => if c == "" then r else { r with image := some (.str c) }
      | none => r
    | none => r

/-- Lines 455-461: an `img` with a `src` attribute qualifies when the
`src` is not a data URI and the alt text contains none of
`logo`/`icon`/`avatar`. -/
def imgQualifies (n : Node) : Bool :=
  n.tagIs "img" &&
  match n.attrs.src with
  | some src =>
    !startsWithStr src "data:" &&
    !(["logo", "icon", "avatar"].any fun k =>
        containsStr (lowerStr (n.attrs.alt.getD "")) k)
  | none => false

/-- Lines 454-463: the first qualifying `img` provides the image. -/
def imgImagePass (doc : NodeList) (r : ExtractionResult) : ExtractionResult :=
  if optJsonTruthy r.image then r
  else
    match doc.elems.find? imgQualifies with
    | some i => { r with image := some (.str (i.attrs.src.getD "")) }
    | none => r

/-- Lines 465-469: every anchor's `href` that starts with `http`, in
document order. -/
def httpLinks (doc : NodeList) : List String :=
  doc.elems.filterMap fun n =>
    if n.tagIs "a" then
      match n.attrs.href with
      | some h => if startsWithStr h "http" then some h else none
      | none => none
    else none

/-- Lines 465-471: the links field is assigned only when at least one
http link was collected. -/
def linksPass (doc : NodeList) (r : ExtractionResult) : ExtractionResult :=
  let links := httpLinks doc
  if links.isEmpty then r
  else { r with links := some (unique_preserve_order links) }

/-- Source `extract_recipe` (lines 290-473), restricted to the pure
computation over the already-parsed document: the network fetch of lines
291-298 is the out-of-scope boundary that produced `doc`. -/
def extract_recipe (doc : NodeList) : ExtractionResult :=
  linksPass doc
    (imgImagePass doc
      (metaImagePass doc
        (stepsPass doc
          (ingredientsPass doc
            (titlePass doc
              (structuredScan {} (ldJsonPayloads doc)))))))

/-- The normalizer as the spec states it: trim/collapse each entry, drop
an entry whose lowercased key is empty, keep the first occurrence's
trimmed/collapsed text and drop every later entry with the same key. -/
def specNormalize : List String → List String
  | [] => []
  | item :: rest =>
    if dedupKey item == "" then specNormalize rest
    else
      normalize_space item ::
        specNormalize (rest.filter fun x => !(dedupKey x == dedupKey item))
termination_by items => items.length
decreasing_by
  · simp
  · have := List.length_filter_le (fun x => !(dedupKey x == dedupKey item)) rest
    simp only [List.length_cons]
    omega

/-- An absent list field, or one that was assigned through
`_unique_preserve_order`. -/
def upoShaped : Option (List String) → Prop
  | none => True
  | some l => ∃ items, l = unique_preserve_order items

/-! ### Spec-side comparison definitions and concrete documents -/

/-- The element siblings of a node list, in order (what bs4's
`find_next_siblings()` yields). -/
def elemsOnly : NodeList → List Node
  | .nil => []
  | .cons n ns =>
    match n with
    | .text _ => elemsOnly ns
    | .elem t a cs => .elem t a cs :: elemsOnly ns

/-- The node is an element whose tag name starts with the letter h. -/
def tagStartsH (n : Node) : Bool :=
  match n with
  | .elem t _ _ => startsWithStr t "h"
  | .text _ => false

/-- The step texts one walked sibling contributes: `li` texts of an
`ol`/`ul`, the own text of a `p`, `li`/`p` descendant texts otherwise. -/
def sibContribution (n : Node) : List String :=
  if n.tagIs "ol" || n.tagIs "ul" then liTexts n
  else if n.tagIs "p" then
    (match getTextSpaced n with
     | x => if x == "" then [] else [x])
  else liPTexts n

/-- Modelled from the claim's words, for comparison: the sibling walk that
stops exactly at the next heading element of level 1-6. -/
def specSibWalkC6 (sibs : NodeList) : List String :=
  ((elemsOnly sibs).takeWhile fun n => !isHeadingTag n).flatMap sibContribution

/-- Modelled from the claim's words: the heading-anchored scan where the
walk stops exactly at the next h1-h6 heading. -/
def specHeadingStepsC6 (doc : NodeList) : List String :=
  match (doc.elemsWithSibs.filter fun p =>
      isHeadingTag p.1 && stepKeywordHit p.1).find?
      (fun p => !(specSibWalkC6 p.2).isEmpty) with
  | some p => specSibWalkC6 p.2
  | none => []

/-- The sibling walk as the code has it, reformulated: take the element
siblings up to the first whose tag starts with the letter h, and collect
each one's contribution. -/
def hSibWalkSpec (sibs : NodeList) : List String :=
  ((elemsOnly sibs).takeWhile fun n => !tagStartsH n).flatMap sibContribution

/-- The parent's lowercased id, `''` for a top-level element. -/
def parentIdLower : Option Node → String
  | some p => idLower p.attrs
  | none => ""

/-- Modelled from the claim's words: the first-`ol` fallback where an `ol`
is excluded when its parent is noise-tagged by class OR id. -/
def specOlStepsC7 (doc : NodeList) : List String :=
  match ((NodeList.elemsWithParent none doc).filter fun q =>
      q.2.tagIs "ol" &&
      !(noisy (parentClassLower q.1) || noisy (parentIdLower q.1))).find?
      (fun q => !(liTexts q.2).isEmpty) with
  | some q => liTexts q.2
  | none => []

/-- The first-`ol` fallback reformulated: among the `ol` elements whose
parent's class string carries no noise token (the id is not consulted),
the first with non-empty `li` texts provides the steps. -/
def firstCleanOl (ps : List (Option Node × Node)) : List String :=
  match (ps.filter fun q => q.2.tagIs "ol" && !noisy (parentClassLower q.1)).find?
      (fun q => !(liTexts q.2).isEmpty) with
  | some q => liTexts q.2
  | none => []

/-- Exact-string deduplication preserving order (what the claim asserts
for links: case significant, no lowercasing). -/
def dedupExactAux (seen : List String) : List String → List String
  | [] => []
  | x :: rest =>
    if seen.contains x then dedupExactAux seen rest
    else x :: dedupExactAux (x :: seen) rest

/-- Modelled from the claim's words: the links field as document-order
http hrefs deduplicated by exact string equality. -/
def specLinksC3 (doc : NodeList) : List String :=
  dedupExactAux [] (httpLinks doc)

/-- An `ld+json` script element carrying a decoded payload. -/
def scriptEl (payload : Option Json) : Node :=
  el "script" { typeAttr := some "application/ld+json", ldjson := payload } []

/-- C1 counterexample document: the Recipe block declares
`recipeIngredient`, but every line is whitespace; a matching DOM
container also exists. -/
def docC1 : NodeList :=
  .ofList [
    scriptEl (some (.obj [("@type", .str "Recipe"),
      ("recipeIngredient", .arr [.str " "])])),
    el "div" { classes := ["ingredients"] }
      [el "ul" {} [el "li" {} [.text "2 eggs"]]]]

/-- A Recipe block that populates every structured field. -/
def recipeFullBlock : Json :=
  .obj [("@type", .str "Recipe"), ("name", .str "Tacos"),
    ("recipeIngredient", .arr [.str "2 Tortillas"]),
    ("recipeInstructions", .arr [.str "Mix"]),
    ("image", .str "http://example.com/i.png")]

/-- A document whose single script block populates every structured
field, and which also carries competing DOM containers. -/
def docC1w : NodeList :=
  .ofList [
    scriptEl (some recipeFullBlock),
    el "h1" {} [.text "Other title"],
    el "div" { classes := ["ingredients"] }
      [el "ul" {} [el "li" {} [.text "3 Shells"]]]]

/-- C3 counterexample document: two anchors whose hrefs differ only in
letter case. -/
def docC3 : NodeList :=
  .ofList [
    el "a" { href := some "http://A.com/X" } [.text "one"],
    el "a" { href := some "http://a.com/x" } [.text "two"]]

/-- A Recipe block whose `recipeIngredient` is a number: iterating it
raises a `TypeError` inside entry processing. -/
def badRecipeBlock : Json :=
  .obj [("@type", .str "Recipe"), ("name", .str "A"),
    ("recipeIngredient", .num 5)]

/-- A well-formed Recipe block declaring one ingredient line. -/
def goodRecipeBlock : Json :=
  .obj [("@type", .str "Recipe"), ("name", .str "B"),
    ("recipeIngredient", .arr [.str "2 eggs"])]

/-- C4 counterexample document: the first block fails inside entry
processing, the second block is fine. -/
def docC4 : NodeList :=
  .ofList [scriptEl (some badRecipeBlock), scriptEl (some goodRecipeBlock)]

/-- The inner container of the C5 scenario. -/
def innerC5 : Node :=
  el "div" { classes := ["ingredient-list"] } [
    el "ul" {} [
      el "li" {} [.text "1 egg"],
      el "li" {} [.text "2 cups flour"]]]

/-- C5 scenario document: a wrapper container of class `ingredients`
holding an inner container of class `ingredient-list`. -/
def docC5 : NodeList :=
  .ofList [
    el "div" { classes := ["ingredients"] } [
      el "p" {} [.text "Shopping list"],
      innerC5]]

/-- C6 counterexample document: a step heading followed by an `hr` and
then a `p`; only the `hr` separates the heading from the step text. -/
def docC6 : NodeList :=
  .ofList [
    el "h2" {} [.text "Instructions"],
    el "hr" {} [],
    el "p" {} [.text "Mix the dough"]]

/-- C7 counterexample document: the only `ol` lives in a container whose
id (not class) carries the noise token `comment`. -/
def docC7 : NodeList :=
  .ofList [
    el "div" { id := some "comments" } [
      el "ol" {} [el "li" {} [.text "Nice recipe!"]]]]

/-- C8 counterexample document: an empty first `h1` and a non-empty
`title` element. -/
def docC8 : NodeList :=
  .ofList [el "h1" {} [], el "title" {} [.text "My Page"]]

/-- A document whose only content is a Recipe block with the given name. -/
def nameDoc (s : String) : NodeList :=
  .ofList [scriptEl (some (.obj [("@type", .str "Recipe"), ("name", .str s)]))]

/-- A document whose only content is a Recipe block with the given image
string. -/
def imageDoc (s : String) : NodeList :=
  .ofList [scriptEl (some (.obj [("@type", .str "Recipe"), ("image", .str s)]))]

end Cocinando

namespace Cocinando

/-! ### Properties of the normalizer -/

/-- Every word produced by `splitWsAux` is non-empty and free of
whitespace characters (provided the accumulated partial word is). -/
theorem splitWsAux_words (l : List Char) :
    ∀ acc, (∀ c ∈ acc, isSpaceChar c = false) →
      ∀ w ∈ splitWsAux l acc, w ≠ [] ∧ ∀ c ∈ w, isSpaceChar c = false := by
  induction l with
  | nil =>
    intro acc hacc w hw
    simp only [splitWsAux] at hw
    split at hw
    · simp at hw
    · next h =>
      simp only [List.mem_singleton] at hw
      subst hw
      refine ⟨?_, hacc⟩
      intro hnil
      simp [hnil] at h
  | cons c cs ih =>
    intro acc hacc w hw
    simp only [splitWsAux] at hw
    split at hw
    · rcases List.mem_append.1 hw with h1 | h2
      · split at h1
        · simp at h1
        · next hne =>
          simp only [List.mem_singleton] at h1
          subst h1
          refine ⟨?_, hacc⟩
          intro hnil
          simp [hnil] at hne
      · exact ih [] (by simp) w h2
    · next hc =>
      refine ih (acc ++ [c]) ?_ w hw
      intro x hx
      rcases List.mem_append.1 hx with h | h
      · exact hacc x h
      · simp only [List.mem_singleton] at h
        subst h
        simpa using hc

/-- Splitting a whitespace-free chunk prepended to the input just extends
the accumulated word. -/
theorem splitWsAux_spacefree (w : List Char) (hw : ∀ c ∈ w, isSpaceChar c = false) :
    ∀ l acc, splitWsAux (w ++ l) acc = splitWsAux l (acc ++ w) := by
  induction w with
  | nil => intro l acc; simp
  | cons c cs ih =>
    intro l acc
    have hc : isSpaceChar c = false := hw c (by simp)
    have hcs : ∀ x ∈ cs, isSpaceChar x = false :=
      fun x hx => hw x (List.mem_cons_of_mem _ hx)
    rw [List.cons_append]
    have h1 : splitWsAux (c :: (cs ++ l)) acc = splitWsAux (cs ++ l) (acc ++ [c]) := by
      simp [splitWsAux, hc]
    rw [h1, ih hcs l (acc ++ [c]), List.append_assoc]
    rfl

/-- Re-splitting the space-joined words recovers them, when all words are
non-empty and whitespace-free. -/
theorem wordsOf_joinWords :
    ∀ ws, (∀ w ∈ ws, w ≠ [] ∧ ∀ c ∈ w, isSpaceChar c = false) →
      wordsOf (joinWords ws) = ws := by
  intro ws
  induction ws with
  | nil => intro _; rfl
  | cons w ws ih =>
    intro h
    obtain ⟨hne, hsf⟩ := h w (by simp)
    cases ws with
    | nil =>
      show wordsOf (joinWords [w]) = [w]
      have hj : joinWords [w] = w := rfl
      rw [hj]
      unfold wordsOf
      have h1 := splitWsAux_spacefree w hsf [] []
      rw [List.append_nil] at h1
      rw [h1, List.nil_append]
      have hone : splitWsAux [] w = if w.isEmpty then [] else [w] := rfl
      rw [hone, if_neg (by simp [List.isEmpty_iff, hne])]
    | cons w' ws' =>
      show wordsOf (joinWords (w :: w' :: ws')) = w :: w' :: ws'
      have hj : joinWords (w :: w' :: ws') = w ++ ' ' :: joinWords (w' :: ws') := rfl
      rw [hj]
      unfold wordsOf
      rw [splitWsAux_spacefree w hsf (' ' :: joinWords (w' :: ws')) [], List.nil_append]
      have hstep : splitWsAux (' ' :: joinWords (w' :: ws')) w
          = (if w.isEmpty then [] else [w]) ++ splitWsAux (joinWords (w' :: ws')) [] := by
        simp [splitWsAux, show isSpaceChar ' ' = true from rfl]
      rw [hstep]
      have hrest := ih (fun x hx => h x (List.mem_cons_of_mem _ hx))
      unfold wordsOf at hrest
      rw [hrest, if_neg (by simp [List.isEmpty_iff, hne])]
      rfl

/-- Normalization `_normalize_space` is idempotent. -/
theorem normalize_space_idem (s : String) :
    normalize_space (normalize_space s) = normalize_space s := by
  unfold normalize_space
  have hdata : (⟨joinWords (wordsOf s.data)⟩ : String).data = joinWords (wordsOf s.data) := rfl
  rw [hdata, wordsOf_joinWords (wordsOf s.data)
    (fun w hw => splitWsAux_words s.data [] (by simp) w hw)]

/-- The dedup key of an already-normalized entry equals the key of the
original raw entry. -/
theorem dedupKey_normalize (s : String) :
    dedupKey (normalize_space s) = dedupKey s := by
  unfold dedupKey
  rw [normalize_space_idem]

/-- Reduce a boolean-literal `if` (used to steer the normalizer guards). -/
theorem if_bool_true {α : Sort _} (a b : α) :
    (if (true : Bool) = true then a else b) = a := rfl

/-- Reduce a boolean-literal `if`. -/
theorem if_bool_false {α : Sort _} (a b : α) :
    (if (false : Bool) = true then a else b) = b := rfl

/-- The seen-set loop of `_unique_preserve_order` computes `specNormalize`
of the entries whose key is not yet seen. -/
theorem upoAux_eq_specNormalize (items : List String) :
    ∀ seen, upoAux seen items
      = specNormalize (items.filter fun x => !(seen.contains (dedupKey x))) := by
  induction items with
  | nil => intro seen; simp [upoAux, specNormalize]
  | cons item rest ih =>
    intro seen
    rw [List.filter_cons]
    cases hseen : seen.contains (dedupKey item) with
    | true =>
      simp only [Bool.not_true]
      rw [if_bool_false]
      simp only [upoAux]
      rw [hseen, Bool.or_true, if_bool_true]
      exact ih seen
    | false =>
      simp only [Bool.not_false]
      rw [if_pos trivial]
      by_cases hemp : dedupKey item = ""
      · have hkey : (dedupKey item == "") = true := by simp [hemp]
        simp only [upoAux]
        rw [hseen, hkey, Bool.true_or, if_bool_true]
        rw [specNormalize, hkey, if_bool_true]
        exact ih seen
      · have hkey : (dedupKey item == "") = false := by
          rw [beq_eq_false_iff_ne]
          exact hemp
        simp only [upoAux]
        rw [hseen, hkey, Bool.or_false, if_bool_false]
        rw [specNormalize, hkey, if_bool_false]
        rw [ih (dedupKey item :: seen)]
        congr 1
        rw [List.filter_filter]
        apply congrArg
        apply List.filter_congr
        intro x _
        simp only [List.contains_cons]
        cases hx : dedupKey x == dedupKey item
        · simp [hx]
        · simp [hx]

/-- Source `_unique_preserve_order` is exactly the spec's normalizer. -/
theorem unique_preserve_order_eq_spec (items : List String) :
    unique_preserve_order items = specNormalize items := by
  unfold unique_preserve_order
  rw [upoAux_eq_specNormalize items []]
  congr 1
  simp

/-- For the seen-set loop: every output key avoids the seen set, is
non-empty, and the output keys are pairwise distinct. -/
theorem upoAux_keys (items : List String) :
    ∀ seen,
      (∀ k ∈ (upoAux seen items).map dedupKey, ¬ seen.contains k = true) ∧
      (∀ k ∈ (upoAux seen items).map dedupKey, k ≠ "") ∧
      ((upoAux seen items).map dedupKey).Nodup := by
  induction items with
  | nil => intro seen; simp [upoAux]
  | cons item rest ih =>
    intro seen
    simp only [upoAux]
    cases hguard : (dedupKey item == "" || seen.contains (dedupKey item))
    · rw [if_bool_false]
      have hkey : (dedupKey item == "") = false := by
        cases h : dedupKey item == ""
        · rfl
        · rw [h] at hguard; simp at hguard
      have hseen : seen.contains (dedupKey item) = false := by
        cases h : seen.contains (dedupKey item)
        · rfl
        · rw [h] at hguard; simp at hguard
      obtain ⟨havoid, hne, hnodup⟩ := ih (dedupKey item :: seen)
      have hhead : dedupKey (normalize_space item) = dedupKey item :=
        dedupKey_normalize item
      refine ⟨?_, ?_, ?_⟩
      · intro k hk
        simp only [List.map_cons, List.mem_cons, hhead] at hk
        rcases hk with hk | hk
        · subst hk
          rw [hseen]
          exact Bool.false_ne_true
        · intro hc
          exact havoid k hk (by rw [List.contains_cons, hc, Bool.or_true])
      · intro k hk
        simp only [List.map_cons, List.mem_cons, hhead] at hk
        rcases hk with hk | hk
        · subst hk
          intro he
          rw [he] at hkey
          simp at hkey
        · exact hne k hk
      · simp only [List.map_cons, hhead]
        refine List.Nodup.cons ?_ hnodup
        intro hmem
        exact havoid _ hmem (by simp [List.contains_cons])
    · rw [if_bool_true]
      exact ih seen

/-- The normalized output is a sublist of the normalized raw entries:
order is preserved, and each kept entry is the trimmed/collapsed original. -/
theorem upoAux_sublist (items : List String) :
    ∀ seen, (upoAux seen items).Sublist (items.map normalize_space) := by
  induction items with
  | nil => intro seen; simp [upoAux]
  | cons item rest ih =>
    intro seen
    simp only [upoAux, List.map_cons]
    cases hguard : (dedupKey item == "" || seen.contains (dedupKey item))
    · rw [if_bool_false]
      exact List.Sublist.cons₂ _ (ih (dedupKey item :: seen))
    · rw [if_bool_true]
      exact List.Sublist.cons _ (ih seen)

/-- Every input entry with a non-empty key is represented in the output
(or its key was already seen). -/
theorem upoAux_covers (items : List String) :
    ∀ seen item, item ∈ items → dedupKey item ≠ "" →
      seen.contains (dedupKey item) = true ∨
      dedupKey item ∈ (upoAux seen items).map dedupKey := by
  induction items with
  | nil => intro seen item h; simp at h
  | cons hd rest ih =>
    intro seen item hmem hne
    simp only [upoAux]
    cases hguard : (dedupKey hd == "" || seen.contains (dedupKey hd))
    · rw [if_bool_false]
      simp only [List.map_cons, dedupKey_normalize, List.mem_cons]
      rcases List.mem_cons.1 hmem with heq | htl
      · subst heq
        exact Or.inr (Or.inl rfl)
      · rcases ih (dedupKey hd :: seen) item htl hne with hs | ho
        · rw [List.contains_cons] at hs
          cases h2 : dedupKey item == dedupKey hd
          · rw [h2, Bool.false_or] at hs
            exact Or.inl hs
          · exact Or.inr (Or.inl (by simpa using h2))
        · exact Or.inr (Or.inr ho)
    · rw [if_bool_true]
      rcases List.mem_cons.1 hmem with heq | htl
      · subst heq
        cases h : dedupKey item == ""
        · have hseen : seen.contains (dedupKey item) = true := by
            rw [h] at hguard
            simpa using hguard
          exact Or.inl hseen
        · exact absurd (by simpa using h) hne
      · exact ih seen item htl hne

/-! ### Field-preservation lemmas for the pipeline -/

/-- The structured title setter touches only the title. -/
theorem setTitleSD_fields (r : ExtractionResult) (e : Json) :
    (setTitleSD r e).ingredients = r.ingredients ∧
    (setTitleSD r e).steps = r.steps ∧
    (setTitleSD r e).image = r.image ∧
    (setTitleSD r e).links = r.links := by
  unfold setTitleSD
  repeat (first | exact ⟨rfl, rfl, rfl, rfl⟩ | split)

/-- The structured ingredient setter touches only the ingredients. -/
theorem setIngredientsSD_fields (r : ExtractionResult) (e : Json) :
    ((setIngredientsSD r e).1).title = r.title ∧
    ((setIngredientsSD r e).1).steps = r.steps ∧
    ((setIngredientsSD r e).1).image = r.image ∧
    ((setIngredientsSD r e).1).links = r.links := by
  unfold setIngredientsSD
  repeat (first | exact ⟨rfl, rfl, rfl, rfl⟩ | split)

/-- The structured step setter touches only the steps. -/
theorem setStepsSD_fields (r : ExtractionResult) (e : Json) :
    ((setStepsSD r e).1).title = r.title ∧
    ((setStepsSD r e).1).ingredients = r.ingredients ∧
    ((setStepsSD r e).1).image = r.image ∧
    ((setStepsSD r e).1).links = r.links := by
  unfold setStepsSD
  repeat (first | exact ⟨rfl, rfl, rfl, rfl⟩ | split)

/-- The structured image setter touches only the image. -/
theorem setImageSD_fields (r : ExtractionResult) (e : Json) :
    (setImageSD r e).title = r.title ∧
    (setImageSD r e).ingredients = r.ingredients ∧
    (setImageSD r e).steps = r.steps ∧
    (setImageSD r e).links = r.links := by
  unfold setImageSD
  repeat (first | exact ⟨rfl, rfl, rfl, rfl⟩ | split)

/-- Entry processing never touches the links field. -/
theorem processEntry_links (r : ExtractionResult) (e : Json) :
    ((processEntry r e).1).links = r.links := by
  have h1 := (setTitleSD_fields r e).2.2.2
  simp only [processEntry]
  split
  · next r2 heq =>
    have h2 := (setIngredientsSD_fields (setTitleSD r e) e).2.2.2
    rw [heq] at h2
    exact h2.trans h1
  · next r2 heq =>
    have h2 := (setIngredientsSD_fields (setTitleSD r e) e).2.2.2
    rw [heq] at h2
    split
    · next r3 heq2 =>
      have h3 := (setStepsSD_fields r2 e).2.2.2
      rw [heq2] at h3
      exact h3.trans (h2.trans h1)
    · next r3 heq2 =>
      have h3 := (setStepsSD_fields r2 e).2.2.2
      rw [heq2] at h3
      exact ((setImageSD_fields r3 e).2.2.2).trans (h3.trans (h2.trans h1))

/-- Block processing never touches the links field. -/
theorem processBlock_links (r : ExtractionResult) (d : Json) :
    ((processBlock r d).1).links = r.links := by
  simp only [processBlock]
  split
  · exact processEntry_links r _
  · rfl

/-- The structured-data scan never touches the links field. -/
theorem structuredScan_links (bs : List (Option Json)) :
    ∀ r, (structuredScan r bs).links = r.links := by
  induction bs with
  | nil => intro r; rfl
  | cons b rest ih =>
    intro r
    cases b with
    | none => exact ih r
    | some d =>
      have hl := processBlock_links r d
      simp only [structuredScan]
      split
      · next r2 heq =>
        rw [heq] at hl
        exact hl
      · next r2 heq =>
        rw [heq] at hl
        split
        · exact hl
        · exact (ih r2).trans hl

/-- The title pass touches only the title. -/
theorem titlePass_fields (doc : NodeList) (r : ExtractionResult) :
    (titlePass doc r).ingredients = r.ingredients ∧
    (titlePass doc r).steps = r.steps ∧
    (titlePass doc r).image = r.image ∧
    (titlePass doc r).links = r.links := by
  unfold titlePass
  repeat (first | exact ⟨rfl, rfl, rfl, rfl⟩ | split)

/-- The ingredient pass touches only the ingredients. -/
theorem ingredientsPass_fields (doc : NodeList) (r : ExtractionResult) :
    (ingredientsPass doc r).title = r.title ∧
    (ingredientsPass doc r).steps = r.steps ∧
    (ingredientsPass doc r).image = r.image ∧
    (ingredientsPass doc r).links = r.links := by
  simp only [ingredientsPass]
  repeat (first | exact ⟨rfl, rfl, rfl, rfl⟩ | split)

/-- The step pass touches only the steps. -/
theorem stepsPass_fields (doc : NodeList) (r : ExtractionResult) :
    (stepsPass doc r).title = r.title ∧
    (stepsPass doc r).ingredients = r.ingredients ∧
    (stepsPass doc r).image = r.image ∧
    (stepsPass doc r).links = r.links := by
  simp only [stepsPass]
  repeat (first | exact ⟨rfl, rfl, rfl, rfl⟩ | split)

/-- The meta image pass touches only the image. -/
theorem metaImagePass_fields (doc : NodeList) (r : ExtractionResult) :
    (metaImagePass doc r).title = r.title ∧
    (metaImagePass doc r).ingredients = r.ingredients ∧
    (metaImagePass doc r).steps = r.steps ∧
    (metaImagePass doc r).links = r.links := by
  simp only [metaImagePass]
  repeat (first | exact ⟨rfl, rfl, rfl, rfl⟩ | split)

/-- The img image pass touches only the image. -/
theorem imgImagePass_fields (doc : NodeList) (r : ExtractionResult) :
    (imgImagePass doc r).title = r.title ∧
    (imgImagePass doc r).ingredients = r.ingredients ∧
    (imgImagePass doc r).steps = r.steps ∧
    (imgImagePass doc r).links = r.links := by
  simp only [imgImagePass]
  repeat (first | exact ⟨rfl, rfl, rfl, rfl⟩ | split)

/-- The links pass touches only the links. -/
theorem linksPass_fields (doc : NodeList) (r : ExtractionResult) :
    (linksPass doc r).title = r.title ∧
    (linksPass doc r).ingredients = r.ingredients ∧
    (linksPass doc r).steps = r.steps ∧
    (linksPass doc r).image = r.image := by
  simp only [linksPass]
  repeat (first | exact ⟨rfl, rfl, rfl, rfl⟩ | split)

/-- A truthy title suppresses the title heuristic entirely. -/
theorem titlePass_skip (doc : NodeList) (r : ExtractionResult)
    (h : optJsonTruthy r.title = true) : titlePass doc r = r := by
  unfold titlePass
  rw [h, if_bool_true]

/-- Truthy ingredients suppress the ingredient heuristics entirely. -/
theorem ingredientsPass_skip (doc : NodeList) (r : ExtractionResult)
    (h : listTruthy r.ingredients = true) : ingredientsPass doc r = r := by
  unfold ingredientsPass
  rw [h, if_bool_true]

/-- Truthy steps suppress the step heuristics entirely. -/
theorem stepsPass_skip (doc : NodeList) (r : ExtractionResult)
    (h : listTruthy r.steps = true) : stepsPass doc r = r := by
  unfold stepsPass
  rw [h, if_bool_true]

/-- A truthy image suppresses the meta image heuristic. -/
theorem metaImagePass_skip (doc : NodeList) (r : ExtractionResult)
    (h : optJsonTruthy r.image = true) : metaImagePass doc r = r := by
  unfold metaImagePass
  rw [h, if_bool_true]

/-- A truthy image suppresses the img heuristic. -/
theorem imgImagePass_skip (doc : NodeList) (r : ExtractionResult)
    (h : optJsonTruthy r.image = true) : imgImagePass doc r = r := by
  unfold imgImagePass
  rw [h, if_bool_true]

/-! ### Every list field is an image of the normalizer -/

/-- The structured ingredient setter keeps the ingredients normalized. -/
theorem setIngredientsSD_shaped (r : ExtractionResult) (e : Json)
    (h : upoShaped r.ingredients) :
    upoShaped ((setIngredientsSD r e).1).ingredients := by
  simp only [setIngredientsSD]
  repeat (first | exact h | exact ⟨_, rfl⟩ | split)

/-- The structured step setter keeps the steps normalized. -/
theorem setStepsSD_shaped (r : ExtractionResult) (e : Json)
    (h : upoShaped r.steps) :
    upoShaped ((setStepsSD r e).1).steps := by
  simp only [setStepsSD]
  repeat (first | exact h | exact ⟨_, rfl⟩ | split)

/-- Entry processing keeps the ingredients normalized. -/
theorem processEntry_ing_shaped (r : ExtractionResult) (e : Json)
    (h : upoShaped r.ingredients) :
    upoShaped ((processEntry r e).1).ingredients := by
  have h0 : upoShaped (setTitleSD r e).ingredients := by
    rw [(setTitleSD_fields r e).1]; exact h
  have h1 : upoShaped ((setIngredientsSD (setTitleSD r e) e).1).ingredients :=
    setIngredientsSD_shaped _ e h0
  simp only [processEntry]
  split
  · next r2 heq => rw [heq] at h1; exact h1
  · next r2 heq =>
    rw [heq] at h1
    split
    · next r3 heq2 =>
      have h2 := (setStepsSD_fields r2 e).2.1
      rw [heq2] at h2
      rw [h2]
      exact h1
    · next r3 heq2 =>
      have h2 := (setStepsSD_fields r2 e).2.1
      rw [heq2] at h2
      have h3 := (setImageSD_fields r3 e).2.1
      rw [h3, h2]
      exact h1

/-- Entry processing keeps the steps normalized. -/
theorem processEntry_steps_shaped (r : ExtractionResult) (e : Json)
    (h : upoShaped r.steps) :
    upoShaped ((processEntry r e).1).steps := by
  have h0 : upoShaped (setTitleSD r e).steps := by
    rw [(setTitleSD_fields r e).2.1]; exact h
  simp only [processEntry]
  split
  · next r2 heq =>
    have h1 := (setIngredientsSD_fields (setTitleSD r e) e).2.1
    rw [heq] at h1
    rw [h1]
    exact h0
  · next r2 heq =>
    have h1 := (setIngredientsSD_fields (setTitleSD r e) e).2.1
    rw [heq] at h1
    have h2 : upoShaped r2.steps := by rw [h1]; exact h0
    have h3 : upoShaped ((setStepsSD r2 e).1).steps := setStepsSD_shaped r2 e h2
    split
    · next r3 heq2 => rw [heq2] at h3; exact h3
    · next r3 heq2 =>
      rw [heq2] at h3
      have h4 := (setImageSD_fields r3 e).2.2.1
      rw [h4]
      exact h3

/-- Block processing keeps ingredients and steps normalized. -/
theorem processBlock_shaped (r : ExtractionResult) (d : Json)
    (hi : upoShaped r.ingredients) (hs : upoShaped r.steps) :
    upoShaped ((processBlock r d).1).ingredients ∧
    upoShaped ((processBlock r d).1).steps := by
  simp only [processBlock]
  split
  · exact ⟨processEntry_ing_shaped r _ hi, processEntry_steps_shaped r _ hs⟩
  · exact ⟨hi, hs⟩

/-- The structured scan keeps ingredients and steps normalized. -/
theorem structuredScan_shaped (bs : List (Option Json)) :
    ∀ r, upoShaped r.ingredients → upoShaped r.steps →
      upoShaped (structuredScan r bs).ingredients ∧
      upoShaped (structuredScan r bs).steps := by
  induction bs with
  | nil => intro r hi hs; exact ⟨hi, hs⟩
  | cons b rest ih =>
    intro r hi hs
    cases b with
    | none => exact ih r hi hs
    | some d =>
      have hb := processBlock_shaped r d hi hs
      simp only [structuredScan]
      split
      · next r2 heq => rw [heq] at hb; exact hb
      · next r2 heq =>
        rw [heq] at hb
        split
        · exact hb
        · exact ih r2 hb.1 hb.2

/-- The ingredient pass keeps the ingredients normalized. -/
theorem ingredientsPass_shaped (doc : NodeList) (r : ExtractionResult)
    (h : upoShaped r.ingredients) :
    upoShaped (ingredientsPass doc r).ingredients := by
  simp only [ingredientsPass]
  repeat (first | exact h | exact ⟨_, rfl⟩ | split)

/-- The step pass keeps the steps normalized. -/
theorem stepsPass_shaped (doc : NodeList) (r : ExtractionResult)
    (h : upoShaped r.steps) :
    upoShaped (stepsPass doc r).steps := by
  simp only [stepsPass]
  repeat (first | exact h | exact ⟨_, rfl⟩ | split)

/-- The links pass keeps the links normalized. -/
theorem linksPass_shaped (doc : NodeList) (r : ExtractionResult)
    (h : upoShaped r.links) :
    upoShaped (linksPass doc r).links := by
  simp only [linksPass]
  repeat (first | exact h | exact ⟨_, rfl⟩ | split)

/-- Every list field of the final result is an image of the normalizer. -/
theorem extract_recipe_shaped (doc : NodeList) :
    upoShaped (extract_recipe doc).ingredients ∧
    upoShaped (extract_recipe doc).steps ∧
    upoShaped (extract_recipe doc).links := by
  have hsd := structuredScan_shaped (ldJsonPayloads doc) {} trivial trivial
  set r0 := structuredScan {} (ldJsonPayloads doc) with hr0
  have hl0 : upoShaped r0.links := by
    rw [structuredScan_links (ldJsonPayloads doc) {}]
    exact trivial
  have h1i : upoShaped (titlePass doc r0).ingredients := by
    rw [(titlePass_fields doc r0).1]; exact hsd.1
  have h1s : upoShaped (titlePass doc r0).steps := by
    rw [(titlePass_fields doc r0).2.1]; exact hsd.2
  have h1l : upoShaped (titlePass doc r0).links := by
    rw [(titlePass_fields doc r0).2.2.2]; exact hl0
  have h2i := ingredientsPass_shaped doc _ h1i
  have h2s : upoShaped (ingredientsPass doc (titlePass doc r0)).steps := by
    rw [(ingredientsPass_fields doc _).2.1]; exact h1s
  have h2l : upoShaped (ingredientsPass doc (titlePass doc r0)).links := by
    rw [(ingredientsPass_fields doc _).2.2.2]; exact h1l
  have h3i : upoShaped (stepsPass doc (ingredientsPass doc (titlePass doc r0))).ingredients := by
    rw [(stepsPass_fields doc _).2.1]; exact h2i
  have h3s := stepsPass_shaped doc _ h2s
  have h3l : upoShaped (stepsPass doc (ingredientsPass doc (titlePass doc r0))).links := by
    rw [(stepsPass_fields doc _).2.2.2]; exact h2l
  have h4i : upoShaped (metaImagePass doc (stepsPass doc (ingredientsPass doc (titlePass doc r0)))).ingredients := by
    rw [(metaImagePass_fields doc _).2.1]; exact h3i
  have h4s : upoShaped (metaImagePass doc (stepsPass doc (ingredientsPass doc (titlePass doc r0)))).steps := by
    rw [(metaImagePass_fields doc _).2.2.1]; exact h3s
  have h4l : upoShaped (metaImagePass doc (stepsPass doc (ingredientsPass doc (titlePass doc r0)))).links := by
    rw [(metaImagePass_fields doc _).2.2.2]; exact h3l
  have h5i : upoShaped (imgImagePass doc (metaImagePass doc (stepsPass doc (ingredientsPass doc (titlePass doc r0))))).ingredients := by
    rw [(imgImagePass_fields doc _).2.1]; exact h4i
  have h5s : upoShaped (imgImagePass doc (metaImagePass doc (stepsPass doc (ingredientsPass doc (titlePass doc r0))))).steps := by
    rw [(imgImagePass_fields doc _).2.2.1]; exact h4s
  have h5l : upoShaped (imgImagePass doc (metaImagePass doc (stepsPass doc (ingredientsPass doc (titlePass doc r0))))).links := by
    rw [(imgImagePass_fields doc _).2.2.2]; exact h4l
  refine ⟨?_, ?_, ?_⟩
  · show upoShaped (linksPass doc _).ingredients
    rw [(linksPass_fields doc _).2.1]; exact h5i
  · show upoShaped (linksPass doc _).steps
    rw [(linksPass_fields doc _).2.2.1]; exact h5s
  · exact linksPass_shaped doc _ h5l

/-! ### Further helper lemmas -/

/-- Structural induction over sibling lists (the walk never recurses into
a node, so the node motive is trivial). -/
theorem nodeList_ind (P : NodeList → Prop) (h0 : P .nil)
    (h1 : ∀ n ns, P ns → P (.cons n ns)) : ∀ ns, P ns :=
  fun ns =>
    @NodeList.rec (fun _ => True) P (fun _ _ _ _ => trivial) (fun _ => trivial)
      h0 (fun n ns _ hns => h1 n ns hns) ns

/-- The sibling walk of the step chain equals its takeWhile/flatMap
reformulation: element siblings up to the first tag starting with the
letter h, each contributing its step texts. -/
theorem sibWalk_eq_spec : ∀ sibs : NodeList, sibWalk sibs = hSibWalkSpec sibs := by
  refine nodeList_ind _ rfl ?_
  intro n ns ih
  cases n with
  | text s =>
    simp only [sibWalk, hSibWalkSpec, elemsOnly] at ih ⊢
    exact ih
  | elem t a cs =>
    cases hh : startsWithStr t "h"
    · simp only [sibWalk, hSibWalkSpec, elemsOnly, hh, Bool.false_eq_true, if_false,
        List.takeWhile_cons, tagStartsH, Bool.not_false, if_true, List.flatMap_cons,
        sibContribution, Node.tagIs, ih]
      split
      · rfl
      · split
        · rfl
        · rfl
    · simp only [sibWalk, hSibWalkSpec, elemsOnly, hh, if_true,
        List.takeWhile_cons, tagStartsH, Bool.not_true, Bool.false_eq_true, if_false,
        List.flatMap_nil]

/-- The heading loop returns the walk of the first keyword heading whose
walk is non-empty. -/
theorem pickHeading_eq (l : List (Node × NodeList)) :
    pickHeading l =
      (match (l.filter fun p => isHeadingTag p.1 && stepKeywordHit p.1).find?
          (fun p => !(sibWalk p.2).isEmpty) with
       | some p => sibWalk p.2
       | none => []) := by
  induction l with
  | nil => rfl
  | cons q rest ih =>
    rcases q with ⟨h, sibs⟩
    simp only [pickHeading, List.filter_cons]
    cases hsel : (isHeadingTag h && stepKeywordHit h)
    · rw [if_bool_false]
      simp only [Bool.false_eq_true, if_false]
      exact ih
    · rw [if_bool_true, if_bool_true]
      show (if (sibWalk sibs).isEmpty = true then pickHeading rest else sibWalk sibs) = _
      cases hemp : (sibWalk sibs).isEmpty with
      | false =>
        rw [if_bool_false, List.find?_cons_of_pos _ (by simp [hemp])]
      | true =>
        rw [if_bool_true, List.find?_cons_of_neg _ (by simp [hemp])]
        exact ih

/-- The structured title is either untouched or truthy after the title
setter. -/
theorem setTitleSD_title (r : ExtractionResult) (e : Json) :
    (setTitleSD r e).title = r.title ∨
    optJsonTruthy (setTitleSD r e).title = true := by
  simp only [setTitleSD]
  split
  · exact Or.inl rfl
  · split
    · split
      · next hv => exact Or.inr hv
      · exact Or.inl rfl
    · exact Or.inl rfl

/-- Entry processing changes the title exactly as the title setter does. -/
theorem processEntry_title (r : ExtractionResult) (e : Json) :
    ((processEntry r e).1).title = (setTitleSD r e).title := by
  simp only [processEntry]
  split
  · next r2 heq =>
    have h1 := (setIngredientsSD_fields (setTitleSD r e) e).1
    rw [heq] at h1
    exact h1
  · next r2 heq =>
    have h1 := (setIngredientsSD_fields (setTitleSD r e) e).1
    rw [heq] at h1
    split
    · next r3 heq2 =>
      have h2 := (setStepsSD_fields r2 e).1
      rw [heq2] at h2
      exact h2.trans h1
    · next r3 heq2 =>
      have h2 := (setStepsSD_fields r2 e).1
      rw [heq2] at h2
      exact ((setImageSD_fields r3 e).1).trans (h2.trans h1)

/-- After the structured scan the title is either the initial one or
truthy. -/
theorem structuredScan_title (bs : List (Option Json)) :
    ∀ r, (structuredScan r bs).title = r.title ∨
      optJsonTruthy (structuredScan r bs).title = true := by
  induction bs with
  | nil => intro r; exact Or.inl rfl
  | cons b rest ih =>
    intro r
    cases b with
    | none => exact ih r
    | some d =>
      have hpb : ((processBlock r d).1).title = r.title ∨
          optJsonTruthy ((processBlock r d).1).title = true := by
        simp only [processBlock]
        split
        · rw [processEntry_title r _]
          exact setTitleSD_title r _
        · exact Or.inl rfl
      simp only [structuredScan]
      split
      · next r2 heq => rw [heq] at hpb; exact hpb
      · next r2 heq =>
        rw [heq] at hpb
        split
        · exact hpb
        · rcases ih r2 with h | h
          · rw [h]
            exact hpb
          · exact Or.inr h

/-- A normalizer-shaped list field has pairwise distinct dedup keys. -/
theorem upoShaped_keys_nodup (o : Option (List String)) (h : upoShaped o) :
    ((o.getD []).map dedupKey).Nodup := by
  cases o with
  | none => simp
  | some l =>
    have h2 : ∃ items, l = unique_preserve_order items := h
    obtain ⟨items, rfl⟩ := h2
    exact (upoAux_keys items []).2.2

/-- Scanning a lone Recipe block that declares only a truthy `name`
yields just that title, verbatim. -/
theorem scan_single_name (v : Json) (hv : v.truthy = true) :
    structuredScan {} [some (.obj [("@type", .str "Recipe"), ("name", v)])]
      = { title := some v } := by
  have ht : setTitleSD {} (.obj [("@type", .str "Recipe"), ("name", v)])
      = { title := some v } := by
    have h0 : setTitleSD {} (.obj [("@type", .str "Recipe"), ("name", v)])
        = if v.truthy = true then { title := some v } else {} := rfl
    rw [h0, hv, if_bool_true]
  have hpe : processEntry {} (.obj [("@type", .str "Recipe"), ("name", v)])
      = ({ title := some v }, false) := by
    show (setImageSD (setTitleSD {} (.obj [("@type", .str "Recipe"), ("name", v)]))
      (.obj [("@type", .str "Recipe"), ("name", v)]), false) = _
    rw [ht]
    rfl
  have hpb : processBlock {} (.obj [("@type", .str "Recipe"), ("name", v)])
      = processEntry {} (.obj [("@type", .str "Recipe"), ("name", v)]) := rfl
  simp only [structuredScan]
  rw [hpb, hpe]
  rfl

/-- Scanning a lone Recipe block that declares only a string image yields
just that image, verbatim. -/
theorem scan_single_image (s : String) (hs : (s == "") = false) :
    structuredScan {} [some (.obj [("@type", .str "Recipe"), ("image", .str s)])]
      = { image := some (.str s) } := by
  have htr : Json.truthy (.str s) = true := by
    simp only [Json.truthy, hs, Bool.not_false]
  have him : setImageSD {} (.obj [("@type", .str "Recipe"), ("image", .str s)])
      = { image := some (.str s) } := by
    have h0 : setImageSD {} (.obj [("@type", .str "Recipe"), ("image", .str s)])
        = if (Json.truthy (.str s)) = true then { image := some (.str s) } else {} := rfl
    rw [h0, htr, if_bool_true]
  have hpe : processEntry {} (.obj [("@type", .str "Recipe"), ("image", .str s)])
      = ({ image := some (.str s) }, false) := by
    show (setImageSD {} (.obj [("@type", .str "Recipe"), ("image", .str s)]), false) = _
    rw [him]
  have hpb : processBlock {} (.obj [("@type", .str "Recipe"), ("image", .str s)])
      = processEntry {} (.obj [("@type", .str "Recipe"), ("image", .str s)]) := rfl
  simp only [structuredScan]
  rw [hpb, hpe]
  rfl

/-- The first-`ol` loop equals its filter/find reformulation. -/
theorem olFallback_eq (ps : List (Option Node × Node)) :
    olFallback ps = firstCleanOl ps := by
  induction ps with
  | nil => rfl
  | cons q rest ih =>
    rcases q with ⟨p, n⟩
    simp only [olFallback, firstCleanOl, List.filter_cons] at ih ⊢
    cases htag : n.tagIs "ol" with
    | false =>
      rw [Bool.not_false, if_pos rfl, Bool.false_and, if_neg Bool.false_ne_true]
      exact ih
    | true =>
      rw [Bool.not_true, if_neg Bool.false_ne_true, Bool.true_and]
      cases hnoise : noisy (parentClassLower p) with
      | true =>
        rw [if_pos rfl, Bool.not_true, if_neg Bool.false_ne_true]
        exact ih
      | false =>
        rw [if_neg Bool.false_ne_true, Bool.not_false, if_pos rfl]
        show (if (liTexts n).isEmpty = true then olFallback rest else liTexts n) = _
        cases hli : (liTexts n).isEmpty with
        | true =>
          rw [if_pos rfl, List.find?_cons_of_neg _ (by simp [hli])]
          exact ih
        | false =>
          rw [if_neg Bool.false_ne_true, List.find?_cons_of_pos _ (by simp [hli])]

/-! ### The claims -/

/-- C1 (corrected): once the structured-data pass has populated a field
with a truthy (non-empty) value, the heuristic passes neither run for
that field nor overwrite it, and appending further script blocks after
the one that populated ingredients or steps changes nothing.  (The
whitespace-`recipeIngredient` counterexample shows that a field merely
*assigned* — to an empty list — is not protected.) -/
theorem C1_structured_precedence :
    (∀ doc : NodeList,
      (optJsonTruthy (structuredScan {} (ldJsonPayloads doc)).title = true →
        (extract_recipe doc).title = (structuredScan {} (ldJsonPayloads doc)).title) ∧
      (listTruthy (structuredScan {} (ldJsonPayloads doc)).ingredients = true →
        (extract_recipe doc).ingredients
          = (structuredScan {} (ldJsonPayloads doc)).ingredients) ∧
      (listTruthy (structuredScan {} (ldJsonPayloads doc)).steps = true →
        (extract_recipe doc).steps = (structuredScan {} (ldJsonPayloads doc)).steps) ∧
      (optJsonTruthy (structuredScan {} (ldJsonPayloads doc)).image = true →
        (extract_recipe doc).image = (structuredScan {} (ldJsonPayloads doc)).image)) ∧
    (∀ (r : ExtractionResult) (blocks extra : List (Option Json)),
      (listTruthy r.ingredients || listTruthy r.steps) = false →
      (listTruthy (structuredScan r blocks).ingredients ||
        listTruthy (structuredScan r blocks).steps) = true →
      structuredScan r (blocks ++ extra) = structuredScan r blocks) := by
  constructor
  · intro doc
    refine ⟨?_, ?_, ?_, ?_⟩
    · intro h
      show (linksPass doc (imgImagePass doc (metaImagePass doc (stepsPass doc
        (ingredientsPass doc (titlePass doc
          (structuredScan {} (ldJsonPayloads doc)))))))).title = _
      rw [(linksPass_fields doc _).1, (imgImagePass_fields doc _).1,
        (metaImagePass_fields doc _).1, (stepsPass_fields doc _).1,
        (ingredientsPass_fields doc _).1, titlePass_skip doc _ h]
    · intro h
      have h1 : listTruthy (titlePass doc
          (structuredScan {} (ldJsonPayloads doc))).ingredients = true := by
        rw [(titlePass_fields doc _).1]; exact h
      show (linksPass doc (imgImagePass doc (metaImagePass doc (stepsPass doc
        (ingredientsPass doc (titlePass doc
          (structuredScan {} (ldJsonPayloads doc)))))))).ingredients = _
      rw [(linksPass_fields doc _).2.1, (imgImagePass_fields doc _).2.1,
        (metaImagePass_fields doc _).2.1, (stepsPass_fields doc _).2.1,
        ingredientsPass_skip doc _ h1, (titlePass_fields doc _).1]
    · intro h
      have h1 : listTruthy (ingredientsPass doc (titlePass doc
          (structuredScan {} (ldJsonPayloads doc)))).steps = true := by
        rw [(ingredientsPass_fields doc _).2.1, (titlePass_fields doc _).2.1]
        exact h
      show (linksPass doc (imgImagePass doc (metaImagePass doc (stepsPass doc
        (ingredientsPass doc (titlePass doc
          (structuredScan {} (ldJsonPayloads doc)))))))).steps = _
      rw [(linksPass_fields doc _).2.2.1, (imgImagePass_fields doc _).2.2.1,
        (metaImagePass_fields doc _).2.2.1, stepsPass_skip doc _ h1,
        (ingredientsPass_fields doc _).2.1, (titlePass_fields doc _).2.1]
    · intro h
      have h1 : optJsonTruthy (stepsPass doc (ingredientsPass doc (titlePass doc
          (structuredScan {} (ldJsonPayloads doc))))).image = true := by
        rw [(stepsPass_fields doc _).2.2.1, (ingredientsPass_fields doc _).2.2.1,
          (titlePass_fields doc _).2.2.1]
        exact h
      have h2 : optJsonTruthy (metaImagePass doc (stepsPass doc (ingredientsPass doc
          (titlePass doc (structuredScan {} (ldJsonPayloads doc)))))).image = true := by
        rw [metaImagePass_skip doc _ h1]; exact h1
      show (linksPass doc (imgImagePass doc (metaImagePass doc (stepsPass doc
        (ingredientsPass doc (titlePass doc
          (structuredScan {} (ldJsonPayloads doc)))))))).image = _
      rw [(linksPass_fields doc _).2.2.2, imgImagePass_skip doc _ h2,
        metaImagePass_skip doc _ h1, (stepsPass_fields doc _).2.2.1,
        (ingredientsPass_fields doc _).2.2.1, (titlePass_fields doc _).2.2.1]
  · intro r blocks extra
    induction blocks generalizing r with
    | nil =>
      intro h0 h1
      have h2 : (listTruthy r.ingredients || listTruthy r.steps) = true := h1
      rw [h0] at h2
      exact absurd h2 Bool.false_ne_true
    | cons b bs ih =>
      cases b with
      | none =>
        intro h0 h1
        exact ih r h0 h1
      | some d =>
        intro h0 h1
        rw [List.cons_append]
        simp only [structuredScan]
        rcases hpb : processBlock r d with ⟨r2, fl⟩
        cases fl with
        | true => rfl
        | false =>
          show (if (listTruthy r2.ingredients || listTruthy r2.steps) = true then r2
              else structuredScan r2 (bs ++ extra)) =
            (if (listTruthy r2.ingredients || listTruthy r2.steps) = true then r2
              else structuredScan r2 bs)
          cases hp : (listTruthy r2.ingredients || listTruthy r2.steps) with
          | true => rfl
          | false =>
            show structuredScan r2 (bs ++ extra) = structuredScan r2 bs
            have hred : structuredScan r (some d :: bs) = structuredScan r2 bs := by
              simp only [structuredScan]
              rw [hpb]
              show (if (listTruthy r2.ingredients || listTruthy r2.steps) = true then r2
                  else structuredScan r2 bs) = structuredScan r2 bs
              rw [hp, if_neg Bool.false_ne_true]
            exact ih r2 hp (hred ▸ h1)

/-- C1 witness: a document whose Recipe block populates all four fields
keeps each of them verbatim, and a later block is never scanned. -/
theorem C1_structured_precedence_witness :
    (extract_recipe docC1w).title = (structuredScan {} (ldJsonPayloads docC1w)).title ∧
    (extract_recipe docC1w).ingredients
      = (structuredScan {} (ldJsonPayloads docC1w)).ingredients ∧
    (extract_recipe docC1w).steps = (structuredScan {} (ldJsonPayloads docC1w)).steps ∧
    (extract_recipe docC1w).image = (structuredScan {} (ldJsonPayloads docC1w)).image ∧
    structuredScan {} ([some recipeFullBlock] ++ [none])
      = structuredScan {} [some recipeFullBlock] :=
  ⟨(C1_structured_precedence.1 docC1w).1 (by rfl),
   (C1_structured_precedence.1 docC1w).2.1 (by rfl),
   (C1_structured_precedence.1 docC1w).2.2.1 (by rfl),
   (C1_structured_precedence.1 docC1w).2.2.2 (by rfl),
   C1_structured_precedence.2 {} [some recipeFullBlock] [none] (by rfl) (by rfl)⟩

/-- C1 counterexample: a Recipe block declaring a whitespace-only
`recipeIngredient` sets the ingredients key to the empty list, and the
DOM heuristic then runs and overwrites it. -/
theorem C1_counterexample :
    (structuredScan {} (ldJsonPayloads docC1)).ingredients = some [] ∧
    (extract_recipe docC1).ingredients = some ["2 eggs"] :=
  ⟨rfl, rfl⟩

/-- C2 (confirmed): the normalizer equals the spec's trim/collapse/
lowercase-key/first-occurrence description; output keys are pairwise
distinct and non-empty; output order and text follow the normalized
input; every non-empty-key input is represented; and every list field of
every extraction result has pairwise distinct keys. -/
theorem C2_normalizer_dedup :
    (∀ items, unique_preserve_order items = specNormalize items) ∧
    (∀ items, ((unique_preserve_order items).map dedupKey).Nodup) ∧
    (∀ items, ∀ k ∈ (unique_preserve_order items).map dedupKey, k ≠ "") ∧
    (∀ items, (unique_preserve_order items).Sublist (items.map normalize_space)) ∧
    (∀ items item, item ∈ items → dedupKey item ≠ "" →
      dedupKey item ∈ (unique_preserve_order items).map dedupKey) ∧
    (∀ doc : NodeList,
      (((extract_recipe doc).ingredients.getD []).map dedupKey).Nodup ∧
      (((extract_recipe doc).steps.getD []).map dedupKey).Nodup ∧
      (((extract_recipe doc).links.getD []).map dedupKey).Nodup) := by
  refine ⟨unique_preserve_order_eq_spec, ?_, ?_, ?_, ?_, ?_⟩
  · intro items
    exact (upoAux_keys items []).2.2
  · intro items
    exact (upoAux_keys items []).2.1
  · intro items
    exact upoAux_sublist items []
  · intro items item hm hne
    rcases upoAux_covers items [] item hm hne with h | h
    · simp at h
    · exact h
  · intro doc
    obtain ⟨hi, hs, hl⟩ := extract_recipe_shaped doc
    exact ⟨upoShaped_keys_nodup _ hi, upoShaped_keys_nodup _ hs,
      upoShaped_keys_nodup _ hl⟩

/-- C2 witness: concrete dedup of `1 egg` against `1 EGG `. -/
theorem C2_normalizer_dedup_witness :
    dedupKey "1 EGG " ∈ (unique_preserve_order ["1 egg", "1 EGG "]).map dedupKey ∧
    dedupKey "1 egg" ≠ "" :=
  ⟨C2_normalizer_dedup.2.2.2.2.1 ["1 egg", "1 EGG "] "1 EGG " (by decide) (by decide),
   C2_normalizer_dedup.2.2.1 ["1 egg", "1 EGG "] (dedupKey "1 egg") (by decide)⟩

/-- C3 (corrected): the links field is the document-order http hrefs
passed through the same normalizer as every other list field — so the
dedup key IS lowercased (and whitespace-collapsed), and two hrefs that
differ only in letter case are deduplicated, the first being kept. -/
theorem C3_links_normalized (doc : NodeList) :
    (extract_recipe doc).links =
      (if (httpLinks doc).isEmpty then none
       else some (unique_preserve_order (httpLinks doc))) := by
  have h0 : (structuredScan {} (ldJsonPayloads doc)).links = none :=
    structuredScan_links _ {}
  have h1 : (imgImagePass doc (metaImagePass doc (stepsPass doc (ingredientsPass doc
      (titlePass doc (structuredScan {} (ldJsonPayloads doc))))))).links = none := by
    rw [(imgImagePass_fields doc _).2.2.2, (metaImagePass_fields doc _).2.2.2,
      (stepsPass_fields doc _).2.2.2, (ingredientsPass_fields doc _).2.2.2,
      (titlePass_fields doc _).2.2.2, h0]
  show (linksPass doc _).links = _
  simp only [linksPass]
  split
  · exact h1
  · rfl

/-- C3 counterexample: two anchors differing only in case are NOT both
kept — the exact-string dedup the claim describes would keep both, the
code keeps only the first. -/
theorem C3_counterexample :
    specLinksC3 docC3 = ["http://A.com/X", "http://a.com/x"] ∧
    (extract_recipe docC3).links = some ["http://A.com/X"] :=
  ⟨rfl, rfl⟩

/-- C4 (corrected): a JSON decode failure skips only that block; but a
failure while processing an entry aborts the whole structured scan (the
outer handler), so the remaining blocks are never scanned — the already
assigned fields survive; and with no `ld+json` blocks at all the pass
yields the empty partial result. -/
theorem C4_structured_error_handling :
    (∀ (r : ExtractionResult) (rest : List (Option Json)),
      structuredScan r (none :: rest) = structuredScan r rest) ∧
    (∀ (r : ExtractionResult) (b : Json) (rest rest' : List (Option Json)),
      (processBlock r b).2 = true →
      structuredScan r (some b :: rest) = structuredScan r (some b :: rest')) ∧
    (∀ doc : NodeList, ldJsonPayloads doc = [] →
      structuredScan {} (ldJsonPayloads doc) = {}) := by
  refine ⟨fun r rest => rfl, ?_, ?_⟩
  · intro r b rest rest' h
    simp only [structuredScan]
    rcases hpb : processBlock r b with ⟨r2, fl⟩
    rw [hpb] at h
    cases fl with
    | true => rfl
    | false => exact absurd (show false = true from h) Bool.false_ne_true
  · intro doc h
    rw [h]
    rfl

/-- C4 witness: a decode-failing block is skipped; a block whose entry
raises makes the remaining blocks irrelevant; an empty document yields
the empty partial result. -/
theorem C4_structured_error_handling_witness :
    structuredScan {} [none] = structuredScan {} [] ∧
    structuredScan {} [some badRecipeBlock, some goodRecipeBlock]
      = structuredScan {} [some badRecipeBlock] ∧
    structuredScan {} (ldJsonPayloads NodeList.nil) = {} :=
  ⟨C4_structured_error_handling.1 {} [],
   C4_structured_error_handling.2.1 {} badRecipeBlock
     [some goodRecipeBlock] [] (by rfl),
   C4_structured_error_handling.2.2 NodeList.nil rfl⟩

/-- C4 counterexample: the first block's entry failure (a numeric
`recipeIngredient`) aborts the scan before the second, well-formed block
— its ingredients are lost — while the title assigned before the failure
survives. -/
theorem C4_counterexample :
    (extract_recipe docC4).ingredients = none ∧
    (extract_recipe docC4).title = some (.str "A") :=
  ⟨rfl, rfl⟩

/-- C5 (confirmed): every container the ingredient scan retains has no
ingredient-marked strict descendant (the innermost marked container
wins), and in the wrapper/inner scenario the items come from the inner
container only, without duplicates. -/
theorem C5_nesting_exclusion :
    (∀ (doc : NodeList) (c : Node), c ∈ ingredientContainers doc →
      c.hasMarkedDesc = false) ∧
    (extract_recipe docC5).ingredients = some ["1 egg", "2 cups flour"] := by
  constructor
  · intro doc c hc
    have h := (List.mem_filter.1 hc).2
    simp only [containerSurvives, Bool.and_eq_true] at h
    have h2 := h.1.1.2
    simpa using h2
  · rfl

/-- C5 witness: the inner C5 container is retained and has no marked
descendant. -/
theorem C5_nesting_exclusion_witness :
    innerC5.hasMarkedDesc = false := by
  apply C5_nesting_exclusion.1 docC5 innerC5
  have h : ingredientContainers docC5 = [innerC5] := rfl
  rw [h]
  exact List.mem_singleton.mpr rfl

/-- C6 (corrected): the sibling walk stops at the first following sibling
element whose tag name starts with the letter `h` — not only at h1-h6
headings (`hr`, `header`, ... also stop it) — collecting `li` texts from
`ol`/`ul` siblings, own text from `p` siblings and `li`/`p` descendant
texts otherwise; and the scan over headings stops at the first keyword
heading whose walk yields any steps. -/
theorem C6_heading_scan :
    (∀ sibs : NodeList, sibWalk sibs = hSibWalkSpec sibs) ∧
    (∀ doc : NodeList, headingSteps doc =
      (match (doc.elemsWithSibs.filter fun p =>
          isHeadingTag p.1 && stepKeywordHit p.1).find?
          (fun p => !(sibWalk p.2).isEmpty) with
       | some p => sibWalk p.2
       | none => [])) :=
  ⟨sibWalk_eq_spec, fun doc => pickHeading_eq doc.elemsWithSibs⟩

/-- C6 counterexample: with the walk stopping only at h1-h6 (as the
claim states) the scenario heading would yield the step text behind the
`hr`; the code stops at the `hr` and extracts no steps at all. -/
theorem C6_counterexample :
    specHeadingStepsC6 docC6 = ["Mix the dough"] ∧
    (extract_recipe docC6).steps = none :=
  ⟨rfl, rfl⟩

/-- C7 (corrected): the last-resort step fallback takes the first `ol`
whose parent's CLASS string carries no noise token — the parent's id is
not consulted — and stops at the first `ol` producing items. -/
theorem C7_ol_fallback :
    (∀ ps : List (Option Node × Node), olFallback ps = firstCleanOl ps) ∧
    (∀ doc : NodeList, olSteps doc
      = firstCleanOl (NodeList.elemsWithParent none doc)) :=
  ⟨olFallback_eq, fun doc => olFallback_eq (NodeList.elemsWithParent none doc)⟩

/-- C7 counterexample: an `ol` inside a container with id `comments`
would be excluded under the claim's class-or-id noise rule, but the code
checks only the parent's class and takes its items. -/
theorem C7_counterexample :
    specOlStepsC7 docC7 = [] ∧
    (extract_recipe docC7).steps = some ["Nice recipe!"] :=
  ⟨rfl, rfl⟩

/-- C8 (corrected): when the structured title is not truthy, the title
comes from the first `h1` element whenever one exists — even if its text
is empty (bs4 Tags are truthy regardless of content) — and the `title`
element is consulted only when the document has no `h1` at all; the
chosen element's text is assigned even when empty. -/
theorem C8_title_chain (doc : NodeList)
    (h : optJsonTruthy (structuredScan {} (ldJsonPayloads doc)).title = false) :
    (extract_recipe doc).title =
      (match doc.elems.find? (fun n => n.tagIs "h1") with
       | some hh => some (.str (getTextStripped hh))
       | none =>
         match doc.elems.find? (fun n => n.tagIs "title") with
         | some tt => some (.str (getTextStripped tt))
         | none => none) := by
  have hsd : (structuredScan {} (ldJsonPayloads doc)).title = none := by
    rcases structuredScan_title (ldJsonPayloads doc) {} with h2 | h2
    · exact h2
    · rw [h] at h2
      exact absurd h2 Bool.false_ne_true
  show (linksPass doc (imgImagePass doc (metaImagePass doc (stepsPass doc
    (ingredientsPass doc (titlePass doc
      (structuredScan {} (ldJsonPayloads doc)))))))).title = _
  rw [(linksPass_fields doc _).1, (imgImagePass_fields doc _).1,
    (metaImagePass_fields doc _).1, (stepsPass_fields doc _).1,
    (ingredientsPass_fields doc _).1]
  simp only [titlePass]
  rw [h, if_bool_false]
  split
  · rfl
  · split
    · rfl
    · exact hsd

/-- C8 witness: the counterexample document discharges the hypothesis
(its structured title is absent). -/
theorem C8_title_chain_witness :
    (extract_recipe docC8).title =
      (match docC8.elems.find? (fun n => n.tagIs "h1") with
       | some hh => some (.str (getTextStripped hh))
       | none =>
         match docC8.elems.find? (fun n => n.tagIs "title") with
         | some tt => some (.str (getTextStripped tt))
         | none => none) :=
  C8_title_chain docC8 (by rfl)

/-- C8 counterexample: an empty first `h1` beats a non-empty `title`
element; the title becomes the empty string, not the `title` element's
text as the claim requires. -/
theorem C8_counterexample :
    getTextStripped (el "title" {} [.text "My Page"]) = "My Page" ∧
    (extract_recipe docC8).title = some (.str "") :=
  ⟨rfl, rfl⟩

/-- C9 (confirmed): extraction is a pure function of the parsed document
— identical documents yield identical results. -/
theorem C9_deterministic (d1 d2 : NodeList) (h : d1 = d2) :
    extract_recipe d1 = extract_recipe d2 := by
  rw [h]

/-- C9 witness at the empty document. -/
theorem C9_deterministic_witness :
    extract_recipe NodeList.nil = extract_recipe NodeList.nil :=
  C9_deterministic NodeList.nil NodeList.nil rfl

/-- C10 (confirmed): a structured name or image is stored verbatim — no
trimming, no whitespace collapsing: extracting from a Recipe block whose
name is the given non-empty string yields exactly that string as the
title, likewise for a string image; in particular a name of
`"  My Pie "` yields exactly `"  My Pie "`. -/
theorem C10_verbatim :
    (∀ s : String, (s == "") = false →
      (extract_recipe (nameDoc s)).title = some (.str s)) ∧
    (∀ s : String, (s == "") = false →
      (extract_recipe (imageDoc s)).image = some (.str s)) ∧
    (extract_recipe (nameDoc "  My Pie ")).title = some (.str "  My Pie ") := by
  have hname : ∀ s : String, (s == "") = false →
      (extract_recipe (nameDoc s)).title = some (.str s) := by
    intro s hs
    have htr : Json.truthy (.str s) = true := by
      simp only [Json.truthy, hs, Bool.not_false]
    have hpay : ldJsonPayloads (nameDoc s)
        = [some (.obj [("@type", .str "Recipe"), ("name", .str s)])] := rfl
    have hsd : structuredScan {} (ldJsonPayloads (nameDoc s))
        = { title := some (.str s) } := by
      rw [hpay]
      exact scan_single_name (.str s) htr
    show (linksPass (nameDoc s) (imgImagePass (nameDoc s) (metaImagePass (nameDoc s)
      (stepsPass (nameDoc s) (ingredientsPass (nameDoc s) (titlePass (nameDoc s)
        (structuredScan {} (ldJsonPayloads (nameDoc s))))))))).title = _
    rw [hsd, titlePass_skip (nameDoc s) { title := some (.str s) } htr]
    rfl
  refine ⟨hname, ?_, hname "  My Pie " (by decide)⟩
  intro s hs
  have htr : Json.truthy (.str s) = true := by
    simp only [Json.truthy, hs, Bool.not_false]
  have hpay : ldJsonPayloads (imageDoc s)
      = [some (.obj [("@type", .str "Recipe"), ("image", .str s)])] := rfl
  have hsd : structuredScan {} (ldJsonPayloads (imageDoc s))
      = { image := some (.str s) } := by
    rw [hpay]
    exact scan_single_image s hs
  show (linksPass (imageDoc s) (imgImagePass (imageDoc s) (metaImagePass (imageDoc s)
    (stepsPass (imageDoc s) (ingredientsPass (imageDoc s) (titlePass (imageDoc s)
      (structuredScan {} (ldJsonPayloads (imageDoc s))))))))).image = _
  rw [hsd]
  rw [show titlePass (imageDoc s) { image := some (.str s) }
    = { image := some (.str s) } from rfl]
  rw [show ingredientsPass (imageDoc s) { image := some (.str s) }
    = { image := some (.str s) } from rfl]
  rw [show stepsPass (imageDoc s) { image := some (.str s) }
    = { image := some (.str s) } from rfl]
  rw [metaImagePass_skip (imageDoc s) { image := some (.str s) } htr,
    imgImagePass_skip (imageDoc s) { image := some (.str s) } htr]
  rfl

/-- C10 witness: the `"  My Pie "` instance. -/
theorem C10_verbatim_witness :
    ("  My Pie " == "") = false ∧
    (extract_recipe (nameDoc "  My Pie ")).title = some (.str "  My Pie ") :=
  ⟨by decide, C10_verbatim.1 "  My Pie " (by decide)⟩

end Cocinando
